import Mathlib

/-!
# Verification of the `tree-sitter-sexp` pretty-printer

Shallow embedding of `src/lib.rs`: the `Sexp` expression tree, the `size`
estimator, the builder `build_tree` over concrete-syntax nodes, and the
layout engine `PrettyPrinter::pp`.  The concrete-syntax parser itself is not
part of the repository's `src/` (only the glue is), so where a claim needs
it the parser is modelled from the spec (§6): parenthesized lists of
whitespace-separated atoms.

Machine integers (`u32` in the source) are modelled as `Nat`; the source's
counters are only ever incremented, compared, or guardedly decremented, and
debug builds panic (rather than wrap) on overflow, so `Nat` captures the
panic-free behaviour.  The single unguarded decrement (`current_depth -= 1`
on `Nil`) is modelled by returning `none` on underflow.
-/

namespace TreeSitterSexp

/-- The expression tree, from `enum Sexp` in `src/lib.rs`. -/
inductive Sexp where
  | Atom : String → Sexp
  | List : List Sexp → Sexp
  | Nil : Sexp
deriving Repr, Inhabited

/-- A list of expressions (named form, usable inside the `Sexp` namespace
where the bare name `List` is shadowed by the constructor `Sexp.List`). -/
abbrev SexpList := List Sexp

/-- Rendered output characters (named form, for use inside the `Sexp`
namespace). -/
abbrev Chars := List Char

mutual

/-- `Sexp::size` from `src/lib.rs`: `Nil ↦ 0`, `Atom(s) ↦ s.len()`,
`List(parts) ↦` the loop `for p in parts { s += p.size() }`. -/
def Sexp.size : Sexp → Nat
  | .Nil => 0
  | .Atom s => s.length
  | .List parts => Sexp.sizeLoop 0 parts
termination_by structural e => e

/-- The accumulator loop inside `Sexp::size` for the `List` arm. -/
def Sexp.sizeLoop : Nat → SexpList → Nat
  | acc, [] => acc
  | acc, p :: ps => Sexp.sizeLoop (acc + p.size) ps
termination_by structural _ l => l

end

theorem sizeLoop_eq (acc : Nat) (ps : List Sexp) :
    Sexp.sizeLoop acc ps = acc + (ps.map Sexp.size).sum := by
  induction ps generalizing acc with
  | nil => simp [Sexp.sizeLoop]
  | cons p ps ih => simp [Sexp.sizeLoop, ih]; omega

/-- **C3**: `size` satisfies the spec's equations: `size(Nil) = 0`,
`size(Atom(s)) = length(s)`, and `size(List(children))` is the sum of the
children's sizes in order. -/
theorem size_equations :
    Sexp.size .Nil = 0 ∧
    (∀ s : String, Sexp.size (.Atom s) = s.length) ∧
    (∀ cs : List Sexp, Sexp.size (.List cs) = (cs.map Sexp.size).sum) := by
  refine ⟨rfl, fun s => rfl, fun cs => ?_⟩
  simp [Sexp.size, sizeLoop_eq]

/-- The layout-engine state, from `struct PrettyPrinter` in `src/lib.rs`. -/
structure PrettyPrinter where
  max_width : Nat
  current_width : Nat
  indent_size : Nat
  current_depth : Nat
deriving Repr, DecidableEq, Inhabited

/-- `PrettyPrinter::new`: depth 0, width 0, `max_width = 150`, `indent_size = 1`. -/
def PrettyPrinter.new : PrettyPrinter :=
  { current_depth := 0, max_width := 150, current_width := 0, indent_size := 1 }

/-- `PrettyPrinter::padding`: `0` at depth `0`, else
`(current_depth - 1) * indent_size`. -/
def PrettyPrinter.padding (s : PrettyPrinter) : Nat :=
  if s.current_depth = 0 then 0 else (s.current_depth - 1) * s.indent_size

/-- The per-child break decision inside the `for p in parts[1..]` loop of
`PrettyPrinter::pp`: `part_size = next_term_width + padding + p.size()`
overflows when it exceeds `max_width`. -/
def PrettyPrinter.breakBefore (st : PrettyPrinter) (next_term_width : Nat) (p : Sexp) : Bool :=
  next_term_width + st.padding + p.size > st.max_width

/-- The entry computation of the non-empty `List` arm of
`PrettyPrinter::pp` (`src/lib.rs` lines 102-108): increment
`current_depth`, estimate `next_term_width` from the width at entry, and
reset `current_width` to `padding` when the estimate exceeds half of
`max_width` below the outermost list.  Returns the updated state and
`next_term_width`. -/
def PrettyPrinter.enterList (st : PrettyPrinter) (sz : Nat) : PrettyPrinter × Nat :=
  let st1 := { st with current_depth := st.current_depth + 1 }
  let next_term_width := st1.current_width + st1.padding + sz
  let term_overflows := next_term_width > st1.max_width / 2
  let st2 := if term_overflows ∧ st1.current_depth > 1
             then { st1 with current_width := st1.padding }
             else st1
  (st2, next_term_width)

theorem enterList_depth (st : PrettyPrinter) (sz : Nat) :
    (st.enterList sz).1.current_depth = st.current_depth + 1 := by
  rw [PrettyPrinter.enterList]
  split <;> rfl

mutual

/-- `PrettyPrinter::pp` from `src/lib.rs`.  The text sink is modelled as the
returned `List Char`; the sink itself is infallible, and the only failure is
the unguarded `self.current_depth -= 1` in the `Nil` arm, modelled as `none`
when the counter would underflow. -/
def PrettyPrinter.pp (st : PrettyPrinter) : Sexp → Option (List Char × PrettyPrinter)
  | .Atom atom =>
      some (atom.data, { st with current_width := st.current_width + atom.length })
  | .Nil =>
      if st.current_depth = 0 then none
      else some ([], { st with current_depth := st.current_depth - 1 })
  | .List [] => some (['(', ')'], st)
  | .List (p :: parts) =>
      let entry := st.enterList (Sexp.size (.List (p :: parts)))
      match entry.1.pp p with
      | none => none
      | some (out0, st3) =>
        match PrettyPrinter.ppLoop st3 entry.2 parts with
        | none => none
        | some (out1, st4) => some ('(' :: (out0 ++ out1 ++ [')']), st4)
termination_by structural e => e

/-- The `for p in parts[1..]` loop inside the non-empty `List` arm of
`PrettyPrinter::pp`; `next_term_width` is the estimate computed once before
the loop. -/
def PrettyPrinter.ppLoop (st : PrettyPrinter) (next_term_width : Nat) :
    SexpList → Option (List Char × PrettyPrinter)
  | [] => some ([], st)
  | p :: ps =>
    match p with
    | .Nil =>
      match st.pp .Nil with
      | none => none
      | some (out, st1) =>
        match PrettyPrinter.ppLoop st1 next_term_width ps with
        | none => none
        | some (out2, st2) => some (out ++ out2, st2)
    | q =>
      let sep : List Char :=
        if st.breakBefore next_term_width q
        then '\n' :: List.replicate (st.padding + st.indent_size) ' '
        else [' ']
      match st.pp q with
      | none => none
      | some (out, st1) =>
        match PrettyPrinter.ppLoop st1 next_term_width ps with
        | none => none
        | some (out2, st2) => some (sep ++ out ++ out2, st2)
termination_by structural l => l

end

/-- Rendering with explicit parameters: a fresh printer state (depth 0,
width 0) with the given `max_width` and `indent_size`, as `Display` does via
`PrettyPrinter::new` (whose parameters are fixed at 150 and 1). -/
def renderWith (max_width indent_size : Nat) (e : Sexp) : Option (List Char) :=
  match PrettyPrinter.pp
    { max_width := max_width, current_width := 0,
      indent_size := indent_size, current_depth := 0 } e with
  | none => none
  | some (out, _) => some out

/-- `fmt::Display for Sexp`: render with `PrettyPrinter::new()`. -/
def Sexp.format (e : Sexp) : Option Chars := renderWith 150 1 e

/-- Number of line breaks in a rendered output. -/
def countNewlines (out : List Char) : Nat := out.count '\n'

/-! ## Spec-side transcription of the list-layout step (claim C1)

`ppSpecRest` and `ppSpecList` are written from the words of the spec's
layout algorithm (§4.3 steps 1-6), not from the source: `projected_width`
is computed once from the width at entry, the reset fires when
`projected_width` exceeds half of `max_width` away from the outermost
list, and each later non-`Nil` child gets a newline plus
`padding + indent_size` spaces exactly when
`projected_width + padding + size(child) > max_width` with padding
recomputed at that moment, a single space otherwise.  Children themselves
are rendered by the engine's `pp`. -/

/-- Spec-side loop over the children after the first (claim C1 wording). -/
def ppSpecRest (st : PrettyPrinter) (projected_width : Nat) :
    List Sexp → Option (List Char × PrettyPrinter)
  | [] => some ([], st)
  | p :: ps =>
    match p with
    | .Nil =>
      match st.pp .Nil with
      | none => none
      | some (out, st1) =>
        match ppSpecRest st1 projected_width ps with
        | none => none
        | some (out2, st2) => some (out ++ out2, st2)
    | q =>
      let candidate_width := projected_width + st.padding + q.size
      let sep : List Char :=
        if candidate_width > st.max_width
        then '\n' :: List.replicate (st.padding + st.indent_size) ' '
        else [' ']
      match st.pp q with
      | none => none
      | some (out, st1) =>
        match ppSpecRest st1 projected_width ps with
        | none => none
        | some (out2, st2) => some (sep ++ out ++ out2, st2)

/-- Spec-side rendering of a non-empty `List` (claim C1 wording). -/
def ppSpecList (st : PrettyPrinter) (first : Sexp) (rest : List Sexp) :
    Option (List Char × PrettyPrinter) :=
  let entered := { st with current_depth := st.current_depth + 1 }
  let projected_width :=
    entered.current_width + entered.padding + Sexp.size (.List (first :: rest))
  let committed :=
    if projected_width > entered.max_width / 2 ∧ entered.current_depth > 1
    then { entered with current_width := entered.padding }
    else entered
  match committed.pp first with
  | none => none
  | some (out0, st3) =>
    match ppSpecRest st3 projected_width rest with
    | none => none
    | some (out1, st4) => some ('(' :: (out0 ++ out1 ++ [')']), st4)

theorem ppLoop_eq_ppSpecRest (l : List Sexp) (st : PrettyPrinter) (ntw : Nat) :
    PrettyPrinter.ppLoop st ntw l = ppSpecRest st ntw l := by
  induction l generalizing st with
  | nil => simp [PrettyPrinter.ppLoop, ppSpecRest]
  | cons p ps ih =>
      cases p <;>
        simp [PrettyPrinter.ppLoop, ppSpecRest, PrettyPrinter.breakBefore, ih]

/-- **C1**: on a non-empty `List`, the layout engine behaves exactly as the
spec's step list describes it: `projected_width` is estimated once from the
entry width, `current_width` is reset to `padding` when `projected_width`
exceeds half of `max_width` below the outermost list, and every later
non-`Nil` child is preceded by a newline plus `padding + indent_size`
spaces exactly when `projected_width + padding + size(child) > max_width`
(padding recomputed at that moment, `projected_width` unchanged), by a
single space otherwise. -/
theorem pp_list_matches_spec (st : PrettyPrinter) (first : Sexp) (rest : List Sexp) :
    st.pp (.List (first :: rest)) = ppSpecList st first rest := by
  simp only [PrettyPrinter.pp, PrettyPrinter.enterList, ppSpecList,
    ppLoop_eq_ppSpecRest]

/-- **C4 counterexample**: with `indent_size = 1` and the builder-shaped
input `(aaaaa () (a aa a))`, raising `max_width` from 9 to 12 raises the
number of emitted newlines from 1 to 2, so a larger `max_width` can produce
strictly more line breaks (the half-width `current_width` reset fires at
width 9 but not at width 12, leaving a larger running width inside the
nested list). -/
theorem width_monotonicity_counterexample :
    (9 : Nat) ≤ 12 ∧
    renderWith 9 1
      (.List [.Atom "aaaaa", .List [.Nil],
              .List [.Atom "a", .Atom "aa", .Atom "a", .Nil], .Nil]) =
      some ['(', 'a', 'a', 'a', 'a', 'a', ' ', '(', ')', '\n', ' ',
            '(', 'a', ' ', 'a', 'a', ' ', 'a', ')', ')'] ∧
    renderWith 12 1
      (.List [.Atom "aaaaa", .List [.Nil],
              .List [.Atom "a", .Atom "aa", .Atom "a", .Nil], .Nil]) =
      some ['(', 'a', 'a', 'a', 'a', 'a', ' ', '(', ')', '\n', ' ',
            '(', 'a', '\n', ' ', ' ', 'a', 'a', ' ', 'a', ')', ')'] ∧
    countNewlines
      ['(', 'a', 'a', 'a', 'a', 'a', ' ', '(', ')', '\n', ' ',
       '(', 'a', ' ', 'a', 'a', ' ', 'a', ')', ')'] = 1 ∧
    countNewlines
      ['(', 'a', 'a', 'a', 'a', 'a', ' ', '(', ')', '\n', ' ',
       '(', 'a', '\n', ' ', ' ', 'a', 'a', ' ', 'a', ')', ')'] = 2 ∧
    ¬ (2 : Nat) ≤ 1 := by
  refine ⟨by decide, ?_, ?_, by decide, by decide, by decide⟩ <;> rfl

theorem padding_width_irrelevant (st : PrettyPrinter) (w : Nat) :
    PrettyPrinter.padding { st with current_width := w } = st.padding := rfl

theorem padding_maxwidth_irrelevant (st : PrettyPrinter) (w : Nat) :
    PrettyPrinter.padding { st with max_width := w } = st.padding := rfl

theorem breakBefore_width_irrelevant (st : PrettyPrinter) (w ntw : Nat) (p : Sexp) :
    PrettyPrinter.breakBefore { st with current_width := w } ntw p =
      st.breakBefore ntw p := rfl

theorem ppLoop_atoms (ss : List String) (st : PrettyPrinter) (ntw : Nat) :
    ∃ out st', PrettyPrinter.ppLoop st ntw (ss.map .Atom) = some (out, st') ∧
      countNewlines out =
        (ss.countP fun s => st.breakBefore ntw (.Atom s)) +
        (ss.map fun s => s.data.count '\n').sum := by
  induction ss generalizing st with
  | nil => exact ⟨[], st, by simp [PrettyPrinter.ppLoop], by simp [countNewlines]⟩
  | cons s ss ih =>
      obtain ⟨out2, st', h2, hc2⟩ := ih { st with current_width := st.current_width + s.length }
      refine ⟨(if st.breakBefore ntw (.Atom s)
          then '\n' :: List.replicate (st.padding + st.indent_size) ' '
          else [' ']) ++ s.data ++ out2, st', ?_, ?_⟩
      · simp only [List.map_cons, PrettyPrinter.ppLoop, PrettyPrinter.pp, h2,
          List.append_assoc]
      · simp only [PrettyPrinter.breakBefore, PrettyPrinter.padding] at hc2 ⊢
        simp only [countNewlines, List.count_append, List.countP_cons, List.map_cons,
          List.sum_cons] at *
        by_cases hb : (decide (st.max_width <
            ntw + (if st.current_depth = 0 then 0
                   else (st.current_depth - 1) * st.indent_size) +
              (Sexp.Atom s).size)) = true <;>
          simp [hb, hc2, List.count_replicate, countNewlines] <;> omega

theorem countNewlines_render_flat (w ind : Nat) (a : String) (ss : List String) :
    (renderWith w ind (.List (.Atom a :: ss.map .Atom))).map countNewlines =
      some ((ss.countP fun s =>
          PrettyPrinter.breakBefore
            { max_width := w, current_width := a.length, indent_size := ind,
              current_depth := 1 }
            (Sexp.size (.List (.Atom a :: ss.map .Atom))) (.Atom s)) +
        (a.data.count '\n' + (ss.map fun s => s.data.count '\n').sum)) := by
  obtain ⟨out2, st', hloop, hcount⟩ := ppLoop_atoms ss
    { max_width := w, current_width := a.length, indent_size := ind, current_depth := 1 }
    (Sexp.size (.List (.Atom a :: ss.map .Atom)))
  simp only [renderWith, PrettyPrinter.pp, PrettyPrinter.enterList]
  simp only [PrettyPrinter.padding, Nat.zero_add, Nat.add_zero, Nat.sub_self,
    Nat.zero_mul, gt_iff_lt, lt_self_iff_false, and_false, if_false, ite_self,
    reduceIte, Nat.one_ne_zero]
  simp only [hloop]
  simp only [Option.map_some', Option.some.injEq, countNewlines, List.count_cons,
    List.count_append]
  have : ('(' == '\n') = false := rfl
  have h2 : (')' == '\n') = false := rfl
  simp only [countNewlines] at hcount
  rw [hcount]
  simp
  omega

/-- **C4 amended**: increasing `max_width` never flips any single break
decision from space to newline — with the width estimate, padding, and
child fixed, `breakBefore` is antitone in `max_width` — and for a list
whose children are all atoms the total number of emitted newlines is
antitone in `max_width`.  (The global count over nested lists is not
monotone, because the half-width `current_width` reset depends on
`max_width`; see the counterexample.) -/
theorem width_monotonicity_amended :
    (∀ (st : PrettyPrinter) (ntw : Nat) (p : Sexp) (w1 w2 : Nat), w1 ≤ w2 →
      PrettyPrinter.breakBefore { st with max_width := w2 } ntw p = true →
      PrettyPrinter.breakBefore { st with max_width := w1 } ntw p = true) ∧
    (∀ (a : String) (ss : List String) (ind w1 w2 : Nat), w1 ≤ w2 →
      ∀ o1 o2,
        renderWith w1 ind (.List (.Atom a :: ss.map .Atom)) = some o1 →
        renderWith w2 ind (.List (.Atom a :: ss.map .Atom)) = some o2 →
        countNewlines o2 ≤ countNewlines o1) := by
  constructor
  · intro st ntw p w1 w2 hw hbrk
    simp only [PrettyPrinter.breakBefore, padding_maxwidth_irrelevant,
      decide_eq_true_eq] at *
    omega
  · intro a ss ind w1 w2 hw o1 o2 h1 h2
    have e1 := countNewlines_render_flat w1 ind a ss
    have e2 := countNewlines_render_flat w2 ind a ss
    rw [h1, Option.map_some', Option.some.injEq] at e1
    rw [h2, Option.map_some', Option.some.injEq] at e2
    rw [e1, e2]
    have hmono : (ss.countP fun s =>
        PrettyPrinter.breakBefore
          { max_width := w2, current_width := a.length, indent_size := ind,
            current_depth := 1 }
          (Sexp.size (.List (.Atom a :: ss.map .Atom))) (.Atom s)) ≤
        ss.countP fun s =>
          PrettyPrinter.breakBefore
            { max_width := w1, current_width := a.length, indent_size := ind,
              current_depth := 1 }
            (Sexp.size (.List (.Atom a :: ss.map .Atom))) (.Atom s) := by
      apply List.countP_mono_left
      intro s _ h
      simp only [PrettyPrinter.breakBefore, PrettyPrinter.padding,
        decide_eq_true_eq] at *
      omega
    omega

theorem width_monotonicity_amended_witness :
    PrettyPrinter.breakBefore { PrettyPrinter.new with max_width := 3 } 100 (.Atom "a") = true ∧
    countNewlines ['(', 'a', ' ', 'a', 'a', ')'] ≤
      countNewlines ['(', 'a', '\n', ' ', 'a', 'a', ')'] :=
  ⟨width_monotonicity_amended.1 PrettyPrinter.new 100 (.Atom "a") 3 5 (by decide) (by decide),
   width_monotonicity_amended.2 "a" ["aa"] 1 0 100 (by decide)
     ['(', 'a', '\n', ' ', 'a', 'a', ')'] ['(', 'a', ' ', 'a', 'a', ')'] rfl rfl⟩

/-! ## Depth bookkeeping

`pp`'s success and its final `current_depth` depend only on the entry
depth, never on widths: the only failure is the unguarded decrement in the
`Nil` arm, and only the `List` and `Nil` arms touch `current_depth`.
`depthRun` isolates that bookkeeping. -/

mutual

/-- The depth bookkeeping of `PrettyPrinter::pp`: the final `current_depth`
of a render started at depth `d`, or `none` if the `Nil` arm's unguarded
`current_depth -= 1` would underflow. -/
def depthRun (d : Nat) : Sexp → Option Nat
  | .Atom _ => some d
  | .Nil => if d = 0 then none else some (d - 1)
  | .List [] => some d
  | .List (p :: ps) =>
    match depthRun (d + 1) p with
    | none => none
    | some d1 => depthRunLoop d1 ps
termination_by structural e => e

/-- Depth bookkeeping of the `for p in parts[1..]` loop. -/
def depthRunLoop (d : Nat) : SexpList → Option Nat
  | [] => some d
  | p :: ps =>
    match depthRun d p with
    | none => none
    | some d1 => depthRunLoop d1 ps
termination_by structural l => l

end

mutual

theorem pp_depthRun : ∀ (e : Sexp) (st : PrettyPrinter),
    (st.pp e).map (fun r => r.2.current_depth) = depthRun st.current_depth e
  | .Atom a, st => by simp [PrettyPrinter.pp, depthRun]
  | .Nil, st => by
      by_cases h : st.current_depth = 0 <;>
        simp [PrettyPrinter.pp, depthRun, h]
  | .List [], st => by simp [PrettyPrinter.pp, depthRun]
  | .List (p :: ps), st => by
      rw [PrettyPrinter.pp, depthRun]
      have hrec := pp_depthRun p (st.enterList (Sexp.size (.List (p :: ps)))).1
      rw [enterList_depth] at hrec
      rw [← hrec]
      cases hpp : (st.enterList (Sexp.size (.List (p :: ps)))).1.pp p with
      | none => simp
      | some r =>
          simp only [Option.map_some']
          have hrec2 := ppLoop_depthRunLoop ps r.2
            (st.enterList (Sexp.size (.List (p :: ps)))).2
          rw [← hrec2]
          cases hloop : PrettyPrinter.ppLoop r.2
              (st.enterList (Sexp.size (.List (p :: ps)))).2 ps with
          | none => simp
          | some r2 => simp

theorem ppLoop_depthRunLoop : ∀ (l : List Sexp) (st : PrettyPrinter) (ntw : Nat),
    (PrettyPrinter.ppLoop st ntw l).map (fun r => r.2.current_depth) =
      depthRunLoop st.current_depth l
  | [], st, ntw => by simp [PrettyPrinter.ppLoop, depthRunLoop]
  | p :: ps, st, ntw => by
      rw [depthRunLoop]
      have hrec := pp_depthRun p st
      rw [← hrec]
      cases p with
      | Nil =>
          rw [PrettyPrinter.ppLoop]
          cases hpp : st.pp .Nil with
          | none => simp
          | some r =>
              simp only [Option.map_some']
              have hrec2 := ppLoop_depthRunLoop ps r.2 ntw
              rw [← hrec2]
              cases hloop : PrettyPrinter.ppLoop r.2 ntw ps with
              | none => simp
              | some r2 => simp
      | Atom a =>
          simp only [PrettyPrinter.ppLoop]
          cases hpp : st.pp (.Atom a) with
          | none => simp
          | some r =>
              simp only [Option.map_some']
              have hrec2 := ppLoop_depthRunLoop ps r.2 ntw
              rw [← hrec2]
              cases hloop : PrettyPrinter.ppLoop r.2 ntw ps with
              | none => simp
              | some r2 => simp
      | List xs =>
          simp only [PrettyPrinter.ppLoop]
          cases hpp : st.pp (.List xs) with
          | none => simp
          | some r =>
              simp only [Option.map_some']
              have hrec2 := ppLoop_depthRunLoop ps r.2 ntw
              rw [← hrec2]
              cases hloop : PrettyPrinter.ppLoop r.2 ntw ps with
              | none => simp
              | some r2 => simp

end

/-! ## Nil-freedom and well-formedness of expressions -/

mutual

/-- `true` when the expression contains no `Nil` anywhere. -/
def nilFree : Sexp → Bool
  | .Nil => false
  | .Atom _ => true
  | .List ps => nilFreeLoop ps
termination_by structural e => e

/-- `nilFree` over a child list. -/
def nilFreeLoop : SexpList → Bool
  | [] => true
  | p :: ps => nilFree p && nilFreeLoop ps
termination_by structural l => l

end

/-- An expression is well-formed for layout when every `Nil` occurrence is
balanced by an enclosing `List` entry on the same render path: rendering
from depth 0 never underflows the depth counter. -/
def WellFormed (e : Sexp) : Prop := (depthRun 0 e).isSome = true

instance : DecidablePred WellFormed := fun e =>
  inferInstanceAs (Decidable ((depthRun 0 e).isSome = true))

/-- The shape of expressions the builder produces from well-formed parses:
atoms, and lists of such expressions terminated by the materialized
closing-delimiter `Nil`. -/
inductive NiceExpr : Sexp → Prop where
  | atom (s : String) : NiceExpr (.Atom s)
  | list (es : List Sexp) : (∀ e ∈ es, NiceExpr e) → NiceExpr (.List (es ++ [.Nil]))

/-! ## Concrete-syntax nodes and the tree builder

A concrete node carries its kind tag, its decoded source text together
with a flag recording whether the underlying byte slice was valid UTF-8
(`utf8_text` in the source can fail), and its ordered children.  The
builder `build_tree` walks it exactly as `Sexp::build_tree` does: for
`list`/`ERROR`/`MISSING` nodes the tree-sitter cursor is positioned on the
first child and the loop advances with `goto_next_sibling`, so the first
child is never visited — hence `children.drop 1`. -/

/-- A concrete-syntax node of the external parser. -/
inductive CNode where
  | mk (kind : String) (utf8ok : Bool) (text : String) (children : List CNode)
deriving Repr, Inhabited

/-- The node's kind tag. -/
def CNode.kind : CNode → String
  | .mk k _ _ _ => k

/-- Whether the node's source slice decodes as UTF-8. -/
def CNode.utf8ok : CNode → Bool
  | .mk _ u _ _ => u

/-- The node's decoded source text. -/
def CNode.text : CNode → String
  | .mk _ _ t _ => t

/-- The node's ordered children. -/
def CNode.children : CNode → List CNode
  | .mk _ _ _ cs => cs

/-- Builder failures (`anyhow::Error` values in the source, told apart by
their provenance). -/
inductive BuildError where
  | parseError
  | textDecode
  | unknownNodeKind (kind : String)
deriving Repr, DecidableEq

mutual

/-- `Sexp::build_tree` from `src/lib.rs`: dispatch on the kind tag;
`"atom"` decodes the source slice, `"list"`/`"ERROR"`/`"MISSING"` seed the
child vector (empty, or the synthetic `Atom` carrying the kind name) and
then collect the children after the first — the cursor is parked on the
first child and the loop advances with `goto_next_sibling`, so the first
child is never visited — `")"` becomes `Nil`, and any other kind is
`UnknownNodeKind`. -/
def Sexp.build_tree : CNode → Except BuildError Sexp
  | .mk kind u t cs =>
    if kind = "atom" then
      if u then .ok (.Atom t) else .error .textDecode
    else if kind = "list" ∨ kind = "ERROR" ∨ kind = "MISSING" then
      let init : SexpList := if kind = "list" then [] else [.Atom kind]
      match cs with
      | [] => .ok (.List init)
      | _ :: rest =>
        match buildChildren rest with
        | .ok es => .ok (.List (init ++ es))
        | .error e => .error e
    else if kind = ")" then .ok .Nil
    else .error (.unknownNodeKind kind)
termination_by structural n => n

/-- The `while walker.goto_next_sibling()` loop of `Sexp::build_tree`,
with the `?` early return on the first failing child. -/
def buildChildren : List CNode → Except BuildError SexpList
  | [] => .ok []
  | c :: cs =>
    match Sexp.build_tree c with
    | .error e => .error e
    | .ok s =>
      match buildChildren cs with
      | .error e => .error e
      | .ok ss => .ok (s :: ss)
termination_by structural l => l

end

mutual

/-- `true` when the builder's walk of this node reaches a failing node: an
unrecognized kind, or an `atom` whose slice does not decode.  Mirrors the
builder's visit order: the first child of a `list`/`ERROR`/`MISSING` node
is never visited. -/
def hasBadVisited : CNode → Bool
  | .mk kind u _ cs =>
    if kind = "atom" then !u
    else if kind = "list" ∨ kind = "ERROR" ∨ kind = "MISSING" then
      match cs with
      | [] => false
      | _ :: rest => anyBadVisited rest
    else if kind = ")" then false
    else true
termination_by structural n => n

/-- `hasBadVisited` over a visited child list. -/
def anyBadVisited : List CNode → Bool
  | [] => false
  | c :: cs => hasBadVisited c || anyBadVisited cs
termination_by structural l => l

end

/-- The anonymous opening-delimiter token node. -/
def lparenNode : CNode := .mk "(" true "(" []

/-- The anonymous closing-delimiter token node. -/
def rparenNode : CNode := .mk ")" true ")" []

/-- An `atom` leaf node with the given source text. -/
def atomNode (s : String) : CNode := .mk "atom" true s []

/-- A `list` node: delimiter tokens around the item nodes, as the grammar
produces (modelled from the spec, §6). -/
def listNode (items : List CNode) : CNode :=
  .mk "list" true "" (lparenNode :: (items ++ [rparenNode]))

/-! ## The concrete parser, modelled from the spec

The tree-sitter grammar is not part of `src/` (only `build.rs` glue), so
the parser is modelled from the spec: §6, "parenthesized lists of
whitespace-separated atoms", producing concrete nodes in the shape the
builder walks — a `list` node's children are the delimiter tokens around
the item nodes, and the wrapping root's single top-level child is what
`of_str` descends into. -/

/-- Modelled from the spec: whitespace separating atoms. -/
def isWsChar (c : Char) : Bool := c = ' ' || c = '\n' || c = '\t' || c = '\r'

/-- Modelled from the spec: characters an atom may contain — anything that
is neither whitespace nor a delimiter (the trailing-colon field form needs
no special case). -/
def isAtomChar (c : Char) : Bool := !isWsChar c && !(c = '(') && !(c = ')')

/-- Skip leading whitespace. -/
def skipWs : List Char → List Char
  | [] => []
  | c :: cs => if isWsChar c then skipWs cs else c :: cs

theorem skipWs_length_le (s : List Char) : (skipWs s).length ≤ s.length := by
  induction s with
  | nil => simp [skipWs]
  | cons c cs ih =>
      rw [skipWs]
      split
      · exact Nat.le_trans ih (Nat.le_succ _)
      · exact Nat.le_refl _

theorem length_dropWhile_le_local (p : Char → Bool) (l : List Char) :
    (l.dropWhile p).length ≤ l.length :=
  (List.dropWhile_sublist p).length_le

mutual

/-- Modelled from the spec: parse one expression — a `(`-delimited list or
a maximal run of atom characters.  The returned remainder is strictly
shorter than the input, which the length-subtyped result records. -/
def parseExpr : (s : List Char) → Option {p : CNode × List Char // p.2.length < s.length}
  | [] => none
  | c :: rest =>
    if c = '(' then
      match parseItems rest with
      | none => none
      | some ⟨(items, r), h⟩ =>
          some ⟨(.mk "list" true "" (lparenNode :: (items ++ [rparenNode])), r), by
            have h2 : r.length ≤ rest.length := h
            show r.length < (c :: rest).length
            simp only [List.length_cons]
            omega⟩
    else if hc : isAtomChar c then
      some ⟨(.mk "atom" true (String.mk ((c :: rest).takeWhile isAtomChar)) [],
             (c :: rest).dropWhile isAtomChar), by
        show ((c :: rest).dropWhile isAtomChar).length < (c :: rest).length
        rw [List.dropWhile_cons_of_pos hc]
        have := length_dropWhile_le_local isAtomChar rest
        simp only [List.length_cons]
        omega⟩
    else none
termination_by s => (s.length, 0)
decreasing_by
  simp only [Prod.lex_iff, List.length_cons]
  omega

/-- Modelled from the spec: parse the whitespace-separated items of a list
up to and including the closing `)`. -/
def parseItems (s : List Char) :
    Option {p : List CNode × List Char // p.2.length ≤ s.length} :=
  match h1 : skipWs s with
    | [] => none
    | c :: r =>
      if c = ')' then
        some ⟨([], r), by
          have h := skipWs_length_le s
          rw [h1] at h
          show r.length ≤ s.length
          simp only [List.length_cons] at h
          omega⟩
      else
        match parseExpr (c :: r) with
        | none => none
        | some ⟨(n, r2), hr2⟩ =>
          match parseItems r2 with
          | none => none
          | some ⟨(ns, r3), hr3⟩ =>
            some ⟨(n :: ns, r3), by
              have h := skipWs_length_le s
              rw [h1] at h
              have hr2a : r2.length < (c :: r).length := hr2
              have hr3a : r3.length ≤ r2.length := hr3
              show r3.length ≤ s.length
              simp only [List.length_cons] at h hr2a
              omega⟩
termination_by (s.length, 1)
decreasing_by
  · have h := skipWs_length_le s
    rw [h1] at h
    rcases Nat.lt_or_ge (c :: r).length s.length with hlt | hge
    · exact Prod.Lex.left _ _ hlt
    · have : (c :: r).length = s.length := Nat.le_antisymm h hge
      rw [this]
      exact Prod.Lex.right _ (by omega)
  · have h := skipWs_length_le s
    rw [h1] at h
    have hr2a : r2.length < (c :: r).length := hr2
    apply Prod.Lex.left
    simp only [List.length_cons] at h hr2a
    omega

end

/-- The parse step of `Sexp::of_str`, modelled from the spec: tree-sitter
skips leading whitespace (an extra), wraps everything in a root node, and
`of_str` descends into the root's first child — the first top-level
expression. -/
def parseTop (s : List Char) : Option (CNode × List Char) :=
  match parseExpr (skipWs s) with
  | none => none
  | some ⟨p, _⟩ => some p

/-- `Sexp::of_str`: parse (modelled from the spec) and build.  A source
that yields no tree at all is `ParseError`; builder failures propagate. -/
def Sexp.of_str (s : String) : Except BuildError Sexp :=
  match parseTop s.data with
  | none => .error .parseError
  | some (n, _) => Sexp.build_tree n

/-- Well-formed concrete nodes: the shapes the modelled parser emits —
non-empty atoms of atom characters, and delimited lists of well-formed
items. -/
inductive WFNode : CNode → Prop where
  | atom (s : String) : s.data ≠ [] → (∀ c ∈ s.data, isAtomChar c = true) →
      WFNode (atomNode s)
  | list (items : List CNode) : (∀ i ∈ items, WFNode i) → WFNode (listNode items)

/-- Expressions the builder produces from well-formed parses: non-empty
atoms of atom characters, and lists of such expressions terminated by the
materialized closing-delimiter `Nil`. -/
inductive GoodExpr : Sexp → Prop where
  | atom (s : String) : s.data ≠ [] → (∀ c ∈ s.data, isAtomChar c = true) →
      GoodExpr (.Atom s)
  | list (es : List Sexp) : (∀ e ∈ es, GoodExpr e) → GoodExpr (.List (es ++ [.Nil]))

/-! ## Totality of layout on well-formed input (C5) -/

mutual

theorem depthRun_shift : ∀ (e : Sexp) (d d1 k : Nat),
    depthRun d e = some d1 → depthRun (d + k) e = some (d1 + k)
  | .Atom a, d, d1, k => by simp [depthRun]
  | .Nil, d, d1, k => by
      rw [depthRun, depthRun]
      by_cases h : d = 0
      · simp [h]
      · rw [if_neg h, if_neg (by omega)]
        simp only [Option.some.injEq]
        intro h1
        omega
  | .List [], d, d1, k => by simp [depthRun]
  | .List (p :: ps), d, d1, k => by
      rw [depthRun, depthRun]
      cases hp : depthRun (d + 1) p with
      | none => simp
      | some d2 =>
          have := depthRun_shift p (d + 1) d2 k hp
          rw [show d + k + 1 = d + 1 + k by omega, this]
          simp only
          intro hl
          exact depthRunLoop_shift ps d2 d1 k hl

theorem depthRunLoop_shift : ∀ (l : List Sexp) (d d1 k : Nat),
    depthRunLoop d l = some d1 → depthRunLoop (d + k) l = some (d1 + k)
  | [], d, d1, k => by simp [depthRunLoop]
  | p :: ps, d, d1, k => by
      rw [depthRunLoop, depthRunLoop]
      cases hp : depthRun d p with
      | none => simp
      | some d2 =>
          have := depthRun_shift p d d2 k hp
          rw [this]
          simp only
          intro hl
          exact depthRunLoop_shift ps d2 d1 k hl

end

/-- **C5**: layout is total on well-formed expressions — those whose `Nil`
occurrences are balanced by an enclosing `List` entry on the render path,
which is exactly what the builder produces.  `pp` then terminates (it is a
total function here) and cannot fail: the only fallible step, the
unguarded `current_depth -= 1` in the `Nil` arm, never underflows; and
`current_width` has no decrement anywhere in the code, so it cannot
underflow either. -/
theorem pp_total_on_wellFormed (e : Sexp) (h : WellFormed e) :
    ∀ st : PrettyPrinter, (st.pp e).isSome = true := by
  intro st
  rw [WellFormed, Option.isSome_iff_exists] at h
  obtain ⟨d1, hd1⟩ := h
  have hshift := depthRun_shift e 0 d1 st.current_depth hd1
  rw [Nat.zero_add] at hshift
  have hcorr := pp_depthRun e st
  rw [hshift] at hcorr
  cases hpp : st.pp e with
  | none => rw [hpp] at hcorr; simp at hcorr
  | some r => simp

theorem pp_total_on_wellFormed_witness :
    WellFormed (.List [.Atom "a", .Nil]) ∧
    ((PrettyPrinter.new.pp (.List [.Atom "a", .Nil])).isSome = true) :=
  ⟨by decide, pp_total_on_wellFormed (.List [.Atom "a", .Nil]) (by decide) PrettyPrinter.new⟩

/-! ## Depth only decreases at `Nil`; every list close is a `Nil` (C6) -/

mutual

theorem nilFree_depthRun_mono : ∀ (e : Sexp), nilFree e = true →
    ∀ (d d1 : Nat), depthRun d e = some d1 → d ≤ d1
  | .Atom a => by intro _ d d1 h; simp [depthRun] at h; omega
  | .Nil => by intro h; simp [nilFree] at h
  | .List [] => by intro _ d d1 h; simp [depthRun] at h
                   omega
  | .List (p :: ps) => by
      intro hnf d d1 h
      rw [nilFree] at hnf
      rw [depthRun] at h
      cases hp : depthRun (d + 1) p with
      | none => rw [hp] at h; simp at h
      | some d2 =>
          rw [hp] at h
          simp only at h
          simp only [nilFreeLoop, Bool.and_eq_true] at hnf
          have h1 := nilFree_depthRun_mono p hnf.1 (d + 1) d2 hp
          have h2 := nilFreeLoop_depthRun_mono ps hnf.2 d2 d1 h
          omega

theorem nilFreeLoop_depthRun_mono : ∀ (l : List Sexp), nilFreeLoop l = true →
    ∀ (d d1 : Nat), depthRunLoop d l = some d1 → d ≤ d1
  | [] => by intro _ d d1 h; simp [depthRunLoop] at h; omega
  | p :: ps => by
      intro hnf d d1 h
      simp only [nilFreeLoop, Bool.and_eq_true] at hnf
      rw [depthRunLoop] at h
      cases hp : depthRun d p with
      | none => rw [hp] at h; simp at h
      | some d2 =>
          rw [hp] at h
          simp only at h
          have h1 := nilFree_depthRun_mono p hnf.1 d d2 hp
          have h2 := nilFreeLoop_depthRun_mono ps hnf.2 d2 d1 h
          omega

end

theorem niceExpr_depthRunLoop (es : List Sexp)
    (ih : ∀ e ∈ es, ∀ d : Nat, depthRun d e = some d) :
    ∀ d : Nat, 1 ≤ d → depthRunLoop d (es ++ [.Nil]) = some (d - 1) := by
  induction es with
  | nil =>
      intro d hd
      rw [List.nil_append, depthRunLoop, depthRun]
      rw [if_neg (by omega)]
      simp [depthRunLoop]
  | cons e es ihes =>
      intro d hd
      rw [List.cons_append, depthRunLoop, ih e (by simp)]
      exact ihes (fun x hx => ih x (by simp [hx])) d hd

/-- `NiceExpr` renders restore the depth counter exactly. -/
theorem niceExpr_depthRun (e : Sexp) (h : NiceExpr e) :
    ∀ d : Nat, depthRun d e = some d := by
  induction h with
  | atom s => intro d; simp [depthRun]
  | list es hall ih =>
      intro d
      cases es with
      | nil =>
          rw [List.nil_append, depthRun, depthRun, if_neg (by omega)]
          simp [depthRunLoop]
      | cons e1 es1 =>
          rw [List.cons_append, depthRun, ih e1 (by simp)]
          simp only
          have := niceExpr_depthRunLoop es1 (fun x hx => ih x (by simp [hx])) (d + 1)
            (by omega)
          simpa using this

/-! ## Building well-formed nodes succeeds and yields `GoodExpr`s -/

theorem buildChildren_items (items : List CNode)
    (ih : ∀ i ∈ items, ∃ e, Sexp.build_tree i = .ok e ∧ GoodExpr e) :
    ∃ es, buildChildren (items ++ [rparenNode]) = .ok (es ++ [.Nil]) ∧
      ∀ e ∈ es, GoodExpr e := by
  induction items with
  | nil =>
      refine ⟨[], ?_, by simp⟩
      simp [buildChildren, Sexp.build_tree, rparenNode]
  | cons i tl ihtl =>
      obtain ⟨e, he, hg⟩ := ih i (by simp)
      obtain ⟨es, hes, hges⟩ := ihtl (fun x hx => ih x (by simp [hx]))
      refine ⟨e :: es, ?_, ?_⟩
      · rw [List.cons_append, buildChildren, he, hes]
        rfl
      · intro x hx
        rcases List.mem_cons.mp hx with rfl | hx
        · exact hg
        · exact hges x hx

theorem wfNode_build : ∀ (n : CNode), WFNode n →
    ∃ e, Sexp.build_tree n = .ok e ∧ GoodExpr e := by
  intro n h
  induction h with
  | atom s hne hchars =>
      exact ⟨.Atom s, rfl, .atom s hne hchars⟩
  | list items hall ih =>
      obtain ⟨es, hes, hges⟩ := buildChildren_items items ih
      refine ⟨.List (es ++ [.Nil]), ?_, .list es hges⟩
      rw [listNode, Sexp.build_tree]
      simp only [String.reduceEq, if_false, if_true, reduceIte]
      simp [hes]

/-- `GoodExpr`s are `NiceExpr`s. -/
theorem goodExpr_nice : ∀ (e : Sexp), GoodExpr e → NiceExpr e := by
  intro e h
  induction h with
  | atom s hne hchars => exact .atom s
  | list es hall ih => exact .list es ih

/-- **C6 counterexample**: the well-formed (non-error-recovery) `list`
node `(a)` builds to `List [Atom "a", Nil]`, whose trailing `Nil` is the
materialized closing delimiter; rendering it returns `current_depth` to
the entry value 0 — a depth decrement did occur at the close of a
well-formed list, where the claim predicts none (final depth entry + 1). -/
theorem depth_decrement_counterexample :
    WFNode (listNode [atomNode "a"]) ∧
    Sexp.build_tree (listNode [atomNode "a"]) = .ok (.List [.Atom "a", .Nil]) ∧
    (PrettyPrinter.new.pp (.List [.Atom "a", .Nil])).map (fun r => r.2.current_depth) =
      some PrettyPrinter.new.current_depth ∧
    PrettyPrinter.new.current_depth ≠ PrettyPrinter.new.current_depth + 1 := by
  refine ⟨?_, rfl, rfl, by decide⟩
  refine WFNode.list [atomNode "a"] ?_
  intro i hi
  rw [List.mem_singleton] at hi
  subst hi
  exact WFNode.atom "a" (by decide) (by decide)

/-- **C6 amended**: `current_depth` decreases only when a `Nil` is
rendered — a `Nil`-free expression never ends below its entry depth — but
`Nil` occurrences arise from every materialized closing delimiter, not
only from error-recovery productions: the builder ends every well-formed
list's children with a `Nil`, so rendering such a list does decrement
depth at its close, returning `current_depth` exactly to its entry
value. -/
theorem depth_decreases_only_at_nil :
    (∀ (e : Sexp), nilFree e = true → ∀ (st : PrettyPrinter) (r : List Char × PrettyPrinter),
        st.pp e = some r → st.current_depth ≤ r.2.current_depth) ∧
    (∀ (items : List CNode) (e : Sexp), WFNode (listNode items) →
        Sexp.build_tree (listNode items) = .ok e →
        ∀ st : PrettyPrinter,
          (st.pp e).map (fun r => r.2.current_depth) = some st.current_depth) := by
  constructor
  · intro e hnf st r hpp
    have hcorr := pp_depthRun e st
    rw [hpp] at hcorr
    simp only [Option.map_some'] at hcorr
    exact nilFree_depthRun_mono e hnf st.current_depth r.2.current_depth hcorr.symm
  · intro items e hwf hbuild st
    obtain ⟨e2, he2, hg⟩ := wfNode_build (listNode items) hwf
    rw [hbuild] at he2
    cases he2
    have hnice := goodExpr_nice e hg
    have hdr := niceExpr_depthRun e hnice st.current_depth
    have hcorr := pp_depthRun e st
    rw [hdr] at hcorr
    exact hcorr

theorem depth_decreases_only_at_nil_witness :
    PrettyPrinter.new.current_depth ≤
      ({ PrettyPrinter.new with current_width := PrettyPrinter.new.current_width +
          "a".length } : PrettyPrinter).current_depth ∧
    (PrettyPrinter.new.pp (.List [.Nil])).map (fun r => r.2.current_depth) =
      some PrettyPrinter.new.current_depth :=
  ⟨depth_decreases_only_at_nil.1 (.Atom "a") rfl PrettyPrinter.new
      ("a".data, { PrettyPrinter.new with current_width := PrettyPrinter.new.current_width +
          "a".length }) rfl,
   depth_decreases_only_at_nil.2 [] (.List [.Nil])
      (WFNode.list [] (fun i hi => absurd hi (List.not_mem_nil i))) rfl PrettyPrinter.new⟩

/-! ## Builder dispatch claims (C2, C7, C9) -/

/-- **C2 counterexample**: on the `list` node `(a)` — concrete children
`["(", atom a, ")"]` — the claim predicts children `[Atom "a"]` (all child
expression nodes, delimiters not materialized); the builder instead
produces `[Atom "a", Nil]`: the closing delimiter IS materialized, as the
trailing `Nil`. -/
theorem list_children_counterexample :
    Sexp.build_tree (listNode [atomNode "a"]) = .ok (.List [.Atom "a", .Nil]) ∧
    Sexp.build_tree (listNode [atomNode "a"]) ≠ .ok (.List [.Atom "a"]) := by
  refine ⟨rfl, ?_⟩
  intro h
  rw [show Sexp.build_tree (listNode [atomNode "a"]) =
      .ok (.List [.Atom "a", .Nil]) from rfl] at h
  simp at h

/-- **C2 amended**: for a `"list"` node the builder produces a `List`
whose children are the recursively built second-through-last child nodes:
the first child (the opening delimiter) is skipped by the cursor walk, and
the last child (the closing delimiter, kind `")"`) is materialized as a
trailing `Nil` rather than dropped. -/
theorem list_children_amended (u : Bool) (t : String) (cs : List CNode) :
    Sexp.build_tree (.mk "list" u t cs) =
      (match buildChildren (cs.drop 1) with
       | .ok es => .ok (.List es)
       | .error err => .error err) ∧
    Sexp.build_tree rparenNode = .ok .Nil := by
  refine ⟨?_, rfl⟩
  cases cs with
  | nil => rfl
  | cons c rest =>
      rw [Sexp.build_tree]
      simp only [String.reduceEq, if_false, reduceIte, List.drop_succ_cons,
        List.drop_zero]
      cases h : buildChildren rest <;> simp [h]

/-- **C7 counterexample**: on an `ERROR` node with concrete children
`[atom x, atom y]` the claim predicts `List [Atom "ERROR", Atom "x",
Atom "y"]` (the kind marker followed by all recursively built children);
the builder instead skips the first child and produces
`List [Atom "ERROR", Atom "y"]`. -/
theorem error_children_counterexample :
    Sexp.build_tree (.mk "ERROR" true "" [atomNode "x", atomNode "y"]) =
      .ok (.List [.Atom "ERROR", .Atom "y"]) ∧
    Sexp.build_tree (.mk "ERROR" true "" [atomNode "x", atomNode "y"]) ≠
      .ok (.List [.Atom "ERROR", .Atom "x", .Atom "y"]) := by
  refine ⟨rfl, ?_⟩
  intro h
  rw [show Sexp.build_tree (.mk "ERROR" true "" [atomNode "x", atomNode "y"]) =
      .ok (.List [.Atom "ERROR", .Atom "y"]) from rfl] at h
  simp at h

/-- **C7 amended**: for an `"ERROR"` or `"MISSING"` node the builder
produces a `List` whose first element is the synthetic `Atom` carrying the
kind name, followed by the recursively built children of the node
excluding the first — the cursor walk skips the node's first child exactly
as in the `"list"` case. -/
theorem error_children_amended (u : Bool) (t : String) (cs : List CNode) :
    (Sexp.build_tree (.mk "ERROR" u t cs) =
      match buildChildren (cs.drop 1) with
      | .ok es => .ok (.List (.Atom "ERROR" :: es))
      | .error err => .error err) ∧
    (Sexp.build_tree (.mk "MISSING" u t cs) =
      match buildChildren (cs.drop 1) with
      | .ok es => .ok (.List (.Atom "MISSING" :: es))
      | .error err => .error err) := by
  constructor <;>
    (cases cs with
     | nil => rfl
     | cons c rest =>
        rw [Sexp.build_tree]
        simp only [String.reduceEq, if_false, reduceIte, List.drop_succ_cons,
          List.drop_zero]
        cases h : buildChildren rest <;> simp [h])

mutual

/-- Building fails exactly when the walk visits a bad node. -/
theorem build_fails_iff : ∀ (n : CNode),
    (∃ err, Sexp.build_tree n = .error err) ↔ hasBadVisited n = true
  | .mk kind u t cs => by
      by_cases h1 : kind = "atom"
      · subst h1
        cases u <;> simp [Sexp.build_tree, hasBadVisited]
      · by_cases h2 : kind = "list" ∨ kind = "ERROR" ∨ kind = "MISSING"
        · rw [Sexp.build_tree]
          simp only [hasBadVisited.eq_def]
          rw [if_neg h1, if_neg h1, if_pos h2, if_pos h2]
          cases cs with
          | nil =>
              simp
          | cons c rest =>
              have hrec := buildChildren_fails_iff rest
              simp only
              cases hb : buildChildren rest with
              | ok es => simp [hb] at hrec ⊢; simp [hrec]
              | error err => simp [hb] at hrec ⊢; simp [hrec]
        · by_cases h3 : kind = ")"
          · subst h3
            simp [Sexp.build_tree, hasBadVisited]
          · rw [Sexp.build_tree]
            simp only [hasBadVisited.eq_def]
            rw [if_neg h1, if_neg h1, if_neg h2, if_neg h2, if_neg h3, if_neg h3]
            simp

/-- `buildChildren` fails exactly when some visited child is bad. -/
theorem buildChildren_fails_iff : ∀ (cs : List CNode),
    (∃ err, buildChildren cs = .error err) ↔ anyBadVisited cs = true
  | [] => by simp [buildChildren, anyBadVisited]
  | c :: rest => by
      have hc := build_fails_iff c
      have hr := buildChildren_fails_iff rest
      rw [buildChildren, anyBadVisited]
      cases hb : Sexp.build_tree c with
      | error err =>
          simp [hb] at hc
          simp [hc]
      | ok s =>
          simp [hb] at hc
          cases hbr : buildChildren rest with
          | error err =>
              simp [hbr] at hr
              simp [hc, hr]
          | ok ss =>
              simp [hbr] at hr
              simp [hc, hr]

end

/-! ## Value-level view of the parser -/

/-- `parseExpr` with the length bound erased. -/
def parseE (s : List Char) : Option (CNode × List Char) :=
  (parseExpr s).map Subtype.val

/-- `parseItems` with the length bound erased. -/
def parseItemsE (s : List Char) : Option (List CNode × List Char) :=
  (parseItems s).map Subtype.val

/-- Rendered output of an expression starts with `(` or an atom
character. -/
def headOk : List Char → Prop
  | [] => False
  | c :: _ => c = '(' ∨ isAtomChar c = true

/-- What may legally follow a rendered expression without merging into it:
nothing, or a non-atom character. -/
def restOk : List Char → Prop
  | [] => True
  | c :: _ => isAtomChar c = false

/-- Rendered output of a child loop is empty or starts with whitespace (a
separator). -/
def sepStart : List Char → Prop
  | [] => True
  | c :: _ => isWsChar c = true

theorem isAtomChar_not_ws {c : Char} (h : isAtomChar c = true) : isWsChar c = false := by
  rw [isAtomChar] at h
  simp only [Bool.and_eq_true, Bool.not_eq_true'] at h
  exact h.1.1

theorem isAtomChar_ne_rparen {c : Char} (h : isAtomChar c = true) : ¬ c = ')' := by
  intro hc
  subst hc
  simp [isAtomChar, isWsChar] at h

theorem isAtomChar_ne_lparen {c : Char} (h : isAtomChar c = true) : ¬ c = '(' := by
  intro hc
  subst hc
  simp [isAtomChar, isWsChar] at h

theorem ws_not_atomChar {c : Char} (h : isWsChar c = true) : isAtomChar c = false := by
  simp [isAtomChar, h]

theorem skipWs_cons_of_not_ws {c : Char} (h : isWsChar c = false) (r : List Char) :
    skipWs (c :: r) = c :: r := by
  rw [skipWs, if_neg (by simp [h])]

theorem skipWs_append_ws (w t : List Char) (h : ∀ c ∈ w, isWsChar c = true) :
    skipWs (w ++ t) = skipWs t := by
  induction w with
  | nil => simp
  | cons c cs ih =>
      rw [List.cons_append, skipWs, if_pos (by simp [h c (by simp)])]
      exact ih (fun x hx => h x (by simp [hx]))

theorem skipWs_of_headOk (t : List Char) (h : headOk t) : skipWs t = t := by
  cases t with
  | nil => rfl
  | cons c r =>
      rcases h with h | h
      · subst h
        apply skipWs_cons_of_not_ws
        decide
      · exact skipWs_cons_of_not_ws (isAtomChar_not_ws h) r

theorem takeWhile_all_append (l rest : List Char)
    (hall : ∀ c ∈ l, isAtomChar c = true) (hrest : restOk rest) :
    (l ++ rest).takeWhile isAtomChar = l ∧
    (l ++ rest).dropWhile isAtomChar = rest := by
  induction l with
  | nil =>
      cases rest with
      | nil => simp
      | cons c r =>
          rw [restOk] at hrest
          simp [List.takeWhile_cons, List.dropWhile_cons, hrest]
  | cons c cs ih =>
      have hc := hall c (by simp)
      have := ih (fun x hx => hall x (by simp [hx]))
      simp [List.takeWhile_cons, List.dropWhile_cons, hc, this]

theorem parseE_length {s : List Char} {n : CNode} {r : List Char}
    (h : parseE s = some (n, r)) : r.length < s.length := by
  rw [parseE] at h
  cases hp : parseExpr s with
  | none => rw [hp] at h; simp at h
  | some v =>
      rw [hp] at h
      simp only [Option.map_some', Option.some.injEq] at h
      have := v.2
      rw [h] at this
      exact this

theorem parseE_some {s : List Char} {p : CNode × List Char}
    (h : parseE s = some p) :
    ∃ hh : p.2.length < s.length, parseExpr s = some ⟨p, hh⟩ := by
  rw [parseE] at h
  cases hp : parseExpr s with
  | none => rw [hp] at h; simp at h
  | some v =>
      rw [hp] at h
      simp only [Option.map_some', Option.some.injEq] at h
      subst h
      exact ⟨v.2, rfl⟩

theorem parseItemsE_some {s : List Char} {p : List CNode × List Char}
    (h : parseItemsE s = some p) :
    ∃ hh : p.2.length ≤ s.length, parseItems s = some ⟨p, hh⟩ := by
  rw [parseItemsE] at h
  cases hp : parseItems s with
  | none => rw [hp] at h; simp at h
  | some v =>
      rw [hp] at h
      simp only [Option.map_some', Option.some.injEq] at h
      subst h
      exact ⟨v.2, rfl⟩

/-- Value-level unfolding of `parseExpr`: empty input. -/
theorem parseE_nil : parseE [] = none := by
  rw [parseE, parseExpr]
  rfl

/-- Value-level unfolding of `parseExpr`: a delimited list. -/
theorem parseE_cons_lparen (rest : List Char) :
    parseE ('(' :: rest) =
      match parseItemsE rest with
      | none => none
      | some (items, r) =>
          some (.mk "list" true "" (lparenNode :: (items ++ [rparenNode])), r) := by
  rw [parseE, parseExpr, if_pos rfl, parseItemsE]
  cases hp : parseItems rest with
  | none => simp
  | some v =>
      obtain ⟨⟨items, r⟩, hh⟩ := v
      simp

/-- Value-level unfolding of `parseExpr`: an atom run. -/
theorem parseE_cons_atom {c : Char} (h : isAtomChar c = true) (rest : List Char) :
    parseE (c :: rest) =
      some (.mk "atom" true (String.mk ((c :: rest).takeWhile isAtomChar)) [],
            (c :: rest).dropWhile isAtomChar) := by
  rw [parseE, parseExpr, if_neg (isAtomChar_ne_lparen h)]
  rw [dif_pos h]
  rfl

/-- Value-level unfolding of `parseExpr`: anything else fails. -/
theorem parseE_cons_other {c : Char} (h1 : ¬ c = '(') (h2 : isAtomChar c = false)
    (rest : List Char) : parseE (c :: rest) = none := by
  rw [parseE, parseExpr, if_neg h1, dif_neg (by simp [h2])]
  rfl

/-- Value-level unfolding of `parseItems`: no input left. -/
theorem parseItemsE_nil {s : List Char} (h : skipWs s = []) : parseItemsE s = none := by
  rw [parseItemsE, parseItems]
  split
  · rfl
  · rename_i c1 r1 heq
    rw [h] at heq
    cases heq

/-- Value-level unfolding of `parseItems`: closing delimiter. -/
theorem parseItemsE_rparen {s : List Char} {r : List Char} (h : skipWs s = ')' :: r) :
    parseItemsE s = some ([], r) := by
  rw [parseItemsE, parseItems]
  split
  · rename_i heq
    rw [h] at heq
    cases heq
  · rename_i c1 r1 heq
    rw [h] at heq
    injection heq with hceq hreq
    subst hceq
    subst hreq
    rw [if_pos rfl]
    simp

/-- Value-level unfolding of `parseItems`: an item then the remaining
items. -/
theorem parseItemsE_item {s : List Char} {c : Char} {r : List Char}
    (h : skipWs s = c :: r) (hc : ¬ c = ')') :
    parseItemsE s =
      match parseE (c :: r) with
      | none => none
      | some (n, r2) =>
        match parseItemsE r2 with
        | none => none
        | some (ns, r3) => some (n :: ns, r3) := by
  rw [parseItemsE, parseItems]
  split
  · rename_i heq
    rw [h] at heq
    cases heq
  · rename_i c1 r1 heq
    rw [h] at heq
    injection heq with hceq hreq
    subst hceq
    subst hreq
    rw [if_neg hc, parseE]
    cases hp : parseExpr (c :: r) with
    | none => simp
    | some v =>
        obtain ⟨⟨n, r2⟩, hh⟩ := v
        simp only [Option.map_some']
        rw [parseItemsE]
        cases hpi : parseItems r2 with
        | none => simp
        | some v2 =>
            obtain ⟨⟨ns, r3⟩, hh2⟩ := v2
            simp

/-- Every node the modelled parser emits is well-formed (strong induction
on a fuel bound `N` over twice the input length, which decreases across
the `parseExpr`/`parseItems` mutual recursion). -/
theorem parse_WF_all : ∀ N : Nat,
    (∀ s : List Char, 2 * s.length ≤ N → ∀ n r, parseE s = some (n, r) → WFNode n) ∧
    (∀ s : List Char, 2 * s.length + 1 ≤ N → ∀ ns r, parseItemsE s = some (ns, r) →
      ∀ x ∈ ns, WFNode x) := by
  intro N
  induction N using Nat.strong_induction_on with
  | _ N ih =>
    constructor
    · intro s hs n r hp
      cases s with
      | nil => rw [parseE_nil] at hp; cases hp
      | cons c rest =>
          by_cases hc : c = '('
          · subst hc
            rw [parseE_cons_lparen] at hp
            cases hpi : parseItemsE rest with
            | none => rw [hpi] at hp; cases hp
            | some v =>
                obtain ⟨items, r2⟩ := v
                rw [hpi] at hp
                simp only [Option.some.injEq, Prod.mk.injEq] at hp
                obtain ⟨hn, hr⟩ := hp
                subst hn
                have hlt : 2 * rest.length + 1 < N := by
                  simp only [List.length_cons] at hs
                  omega
                have hwf := (ih (2 * rest.length + 1) hlt).2 rest (Nat.le_refl _)
                  items r2 hpi
                exact WFNode.list items hwf
          · by_cases ha : isAtomChar c
            · rw [parseE_cons_atom ha] at hp
              simp only [Option.some.injEq, Prod.mk.injEq] at hp
              obtain ⟨hn, hr⟩ := hp
              subst hn
              refine WFNode.atom (String.mk ((c :: rest).takeWhile isAtomChar)) ?_ ?_
              · rw [List.takeWhile_cons_of_pos ha]
                simp
              · intro x hx
                rw [show (String.mk ((c :: rest).takeWhile isAtomChar)).data =
                    (c :: rest).takeWhile isAtomChar from rfl] at hx
                exact List.mem_takeWhile_imp hx
            · rw [parseE_cons_other hc (by simp [ha])] at hp
              cases hp
    · intro s hs ns r hp
      cases hsk : skipWs s with
      | nil => rw [parseItemsE_nil hsk] at hp; cases hp
      | cons c r1 =>
          have hsklen : r1.length + 1 ≤ s.length := by
            have := skipWs_length_le s
            rw [hsk] at this
            simpa using this
          by_cases hc : c = ')'
          · subst hc
            rw [parseItemsE_rparen hsk] at hp
            simp only [Option.some.injEq, Prod.mk.injEq] at hp
            obtain ⟨hns, hr⟩ := hp
            subst hns
            intro x hx
            cases hx
          · rw [parseItemsE_item hsk hc] at hp
            cases hpe : parseE (c :: r1) with
            | none => rw [hpe] at hp; cases hp
            | some v =>
                obtain ⟨n1, r2⟩ := v
                rw [hpe] at hp
                simp only at hp
                cases hpi : parseItemsE r2 with
                | none => rw [hpi] at hp; cases hp
                | some v2 =>
                    obtain ⟨ns2, r3⟩ := v2
                    rw [hpi] at hp
                    simp only [Option.some.injEq, Prod.mk.injEq] at hp
                    obtain ⟨hns, hr⟩ := hp
                    subst hns
                    have hr2len := parseE_length hpe
                    simp only [List.length_cons] at hr2len
                    have hn1 : WFNode n1 := by
                      have hlt : 2 * (c :: r1).length < N := by
                        simp only [List.length_cons]
                        omega
                      exact (ih (2 * (c :: r1).length) hlt).1 (c :: r1)
                        (Nat.le_refl _) n1 r2 hpe
                    have hns2 : ∀ x ∈ ns2, WFNode x := by
                      have hlt : 2 * r2.length + 1 < N := by omega
                      exact (ih (2 * r2.length + 1) hlt).2 r2 (Nat.le_refl _)
                        ns2 r3 hpi
                    intro x hx
                    rcases List.mem_cons.mp hx with rfl | hx
                    · exact hn1
                    · exact hns2 x hx

/-! ## Rendered output reparses to the same tree -/

/-- The round-trip property of a single expression: from any printer
state, rendering succeeds, preserves `current_depth`, starts with `(` or
an atom character, and — followed by any text that cannot merge into it —
reparses to a concrete node that rebuilds the very same expression. -/
def RoundTrips (e : Sexp) : Prop :=
  ∀ st : PrettyPrinter, ∃ out st',
    st.pp e = some (out, st') ∧
    st'.current_depth = st.current_depth ∧
    headOk out ∧
    ∀ rest : List Char, restOk rest →
      ∃ n : CNode, parseE (out ++ rest) = some (n, rest) ∧
        Sexp.build_tree n = .ok e

theorem ppLoop_cons_of_ne (st : PrettyPrinter) (ntw : Nat) (q : Sexp)
    (ps : List Sexp) (h : q ≠ .Nil) :
    PrettyPrinter.ppLoop st ntw (q :: ps) =
      match st.pp q with
      | none => none
      | some (out, st1) =>
        match PrettyPrinter.ppLoop st1 ntw ps with
        | none => none
        | some (out2, st2) =>
          some ((if st.breakBefore ntw q
                 then '\n' :: List.replicate (st.padding + st.indent_size) ' '
                 else [' ']) ++ out ++ out2, st2) := by
  cases q with
  | Nil => exact absurd rfl h
  | Atom a => simp [PrettyPrinter.ppLoop]
  | List xs => simp [PrettyPrinter.ppLoop]

theorem buildChildren_append_rparen (ns : List CNode) (es : List Sexp)
    (h : buildChildren ns = .ok es) :
    buildChildren (ns ++ [rparenNode]) = .ok (es ++ [.Nil]) := by
  induction ns generalizing es with
  | nil =>
      rw [buildChildren] at h
      injection h with h
      subst h
      rfl
  | cons c cs ih =>
      rw [buildChildren] at h
      cases hb : Sexp.build_tree c with
      | error err => rw [hb] at h; cases h
      | ok s =>
          rw [hb] at h
          simp only at h
          cases hbc : buildChildren cs with
          | error err => rw [hbc] at h; cases h
          | ok ss =>
              rw [hbc] at h
              simp only at h
              injection h with h
              subst h
              rw [List.cons_append, buildChildren, hb, ih ss hbc]
              rfl

/-- Separator characters are whitespace. -/
theorem sep_all_ws (b : Bool) (k : Nat) :
    ∀ c ∈ (if b then '\n' :: List.replicate k ' ' else [' ']), isWsChar c = true := by
  intro c hc
  cases b with
  | false =>
      simp at hc
      subst hc
      rfl
  | true =>
      simp only [if_true] at hc
      rcases List.mem_cons.mp hc with rfl | hc
      · rfl
      · rw [List.eq_of_mem_replicate hc]
        rfl

/-- The loop over `Good` items followed by the closing `Nil`: rendering
succeeds, drops `current_depth` by the one trailing `Nil`, produces output
that is empty or begins with a separator, and reparses (with the closing
delimiter appended) to item nodes that rebuild the items. -/
theorem rt_items : ∀ (es : List Sexp),
    (∀ e ∈ es, GoodExpr e) → (∀ e ∈ es, RoundTrips e) →
    ∀ (st : PrettyPrinter) (ntw : Nat), 1 ≤ st.current_depth →
    ∃ outs st',
      PrettyPrinter.ppLoop st ntw (es ++ [.Nil]) = some (outs, st') ∧
      st'.current_depth = st.current_depth - 1 ∧
      sepStart outs ∧
      ∀ rest : List Char, ∃ ns, parseItemsE (outs ++ ')' :: rest) = some (ns, rest) ∧
        buildChildren ns = .ok es := by
  intro es
  induction es with
  | nil =>
      intro _ _ st ntw hd
      refine ⟨[], { st with current_depth := st.current_depth - 1 }, ?_, rfl, trivial, ?_⟩
      · have hnil : st.pp .Nil =
            some ([], { st with current_depth := st.current_depth - 1 }) := by
          rw [PrettyPrinter.pp, if_neg (by omega)]
        rw [List.nil_append]
        simp only [PrettyPrinter.ppLoop, hnil, List.nil_append]
      · intro rest
        refine ⟨[], ?_, rfl⟩
        rw [List.nil_append]
        exact parseItemsE_rparen (skipWs_cons_of_not_ws (by decide) rest)
  | cons e tail ih =>
      intro hall hrt st ntw hd
      have hge := hall e (by simp)
      have hre := hrt e (by simp)
      obtain ⟨out1, st1, hpp, hdep, hhead, hinv⟩ := hre st
      obtain ⟨outs, st', hloop, hdep', hsep, hparse⟩ :=
        ih (fun x hx => hall x (by simp [hx])) (fun x hx => hrt x (by simp [hx]))
          st1 ntw (by omega)
      have hne : e ≠ .Nil := by
        cases hge <;> simp
      refine ⟨(if st.breakBefore ntw e
               then '\n' :: List.replicate (st.padding + st.indent_size) ' '
               else [' ']) ++ out1 ++ outs, st', ?_, by omega, ?_, ?_⟩
      · rw [List.cons_append e tail [Sexp.Nil],
          ppLoop_cons_of_ne st ntw e (tail ++ [Sexp.Nil]) hne]
        simp only [hpp, hloop]
      · cases hb : st.breakBefore ntw e <;> simp [sepStart, hb, isWsChar]
      · intro rest
        obtain ⟨c1, out1', rfl⟩ : ∃ c1 out1', out1 = c1 :: out1' := by
          cases out1 with
          | nil => cases hhead
          | cons a b => exact ⟨a, b, rfl⟩
        have hc1ws : isWsChar c1 = false := by
          rcases hhead with h | h
          · subst h; rfl
          · exact isAtomChar_not_ws h
        have hc1rp : ¬ c1 = ')' := by
          rcases hhead with h | h
          · subst h; intro hcc; cases hcc
          · exact isAtomChar_ne_rparen h
        have hrest1 : restOk (outs ++ ')' :: rest) := by
          cases houts : outs with
          | nil => simp [restOk, isAtomChar, isWsChar]
          | cons oc orest =>
              rw [houts] at hsep
              simp only [List.cons_append, restOk]
              exact ws_not_atomChar hsep
        obtain ⟨n1, hpe, hbuild1⟩ := hinv (outs ++ ')' :: rest) hrest1
        obtain ⟨ns, hpi, hbc⟩ := hparse rest
        refine ⟨n1 :: ns, ?_, ?_⟩
        · have hskip : skipWs (((if st.breakBefore ntw e
              then '\n' :: List.replicate (st.padding + st.indent_size) ' '
              else [' ']) ++ c1 :: out1' ++ outs) ++ ')' :: rest) =
              c1 :: (out1' ++ outs ++ ')' :: rest) := by
            rw [List.append_assoc, List.append_assoc,
              skipWs_append_ws _ _ (sep_all_ws _ _), List.cons_append,
              skipWs_cons_of_not_ws hc1ws, List.append_assoc]
          rw [parseItemsE_item hskip hc1rp]
          rw [show c1 :: (out1' ++ outs ++ ')' :: rest) =
              (c1 :: out1') ++ (outs ++ ')' :: rest) by simp]
          rw [hpe]
          simp only
          rw [hpi]
        · rw [buildChildren, hbuild1, hbc]

theorem goodExpr_roundTrips : ∀ (e : Sexp), GoodExpr e → RoundTrips e := by
  intro e h
  induction h with
  | atom s hne hchars =>
      intro st
      obtain ⟨c, cs, hdat⟩ : ∃ c cs, s.data = c :: cs := by
        cases hd : s.data with
        | nil => exact absurd hd hne
        | cons a b => exact ⟨a, b, rfl⟩
      have hc : isAtomChar c = true := hchars c (by rw [hdat]; simp)
      refine ⟨s.data, { st with current_width := st.current_width + s.length },
        rfl, rfl, ?_, ?_⟩
      · rw [hdat]
        exact Or.inr hc
      · intro rest hrest
        have htk := takeWhile_all_append s.data rest hchars hrest
        refine ⟨atomNode s, ?_, rfl⟩
        rw [hdat, List.cons_append, parseE_cons_atom hc, ← List.cons_append, ← hdat,
          htk.1, htk.2]
        rfl
  | list es hall ih =>
      cases es with
      | nil =>
          intro st
          simp only [List.nil_append]
          have hd := enterList_depth st (Sexp.size (.List [.Nil]))
          have hnil : (st.enterList (Sexp.size (.List [.Nil]))).1.pp .Nil =
              some ([], { (st.enterList (Sexp.size (.List [.Nil]))).1 with
                current_depth :=
                  (st.enterList (Sexp.size (.List [.Nil]))).1.current_depth - 1 }) := by
            rw [PrettyPrinter.pp, if_neg (by omega)]
          refine ⟨['(', ')'],
            { (st.enterList (Sexp.size (.List [.Nil]))).1 with
                current_depth :=
                  (st.enterList (Sexp.size (.List [.Nil]))).1.current_depth - 1 },
            ?_, by simp [hd], Or.inl rfl, ?_⟩
          · simp only [PrettyPrinter.pp, PrettyPrinter.ppLoop, hd]
            simp
          · intro rest hrest
            refine ⟨listNode [], ?_, rfl⟩
            rw [show (['(', ')'] : List Char) ++ rest = '(' :: ')' :: rest from rfl,
              parseE_cons_lparen,
              parseItemsE_rparen (skipWs_cons_of_not_ws (by decide) rest)]
            rfl
      | cons e1 tail =>
          intro st
          simp only [List.cons_append]
          have hg1 := hall e1 (by simp)
          have hrt1 := ih e1 (by simp)
          obtain ⟨out1, st3, hpp1, hdep1, hhead1, hinv1⟩ :=
            hrt1 (st.enterList (Sexp.size (.List (e1 :: (tail ++ [.Nil]))))).1
          have hd := enterList_depth st (Sexp.size (.List (e1 :: (tail ++ [.Nil]))))
          obtain ⟨outs, st4, hloop, hdep4, hsep, hparse⟩ :=
            rt_items tail (fun x hx => hall x (by simp [hx]))
              (fun x hx => ih x (by simp [hx])) st3
              (st.enterList (Sexp.size (.List (e1 :: (tail ++ [.Nil]))))).2
              (by omega)
          refine ⟨'(' :: (out1 ++ outs ++ [')']), st4, ?_, by omega, Or.inl rfl, ?_⟩
          · simp only [PrettyPrinter.pp]
            simp only [hpp1]
            simp only [hloop]
          · intro rest hrest
            obtain ⟨c1, out1', rfl⟩ : ∃ c1 out1', out1 = c1 :: out1' := by
              cases out1 with
              | nil => cases hhead1
              | cons a b => exact ⟨a, b, rfl⟩
            have hc1ws : isWsChar c1 = false := by
              rcases hhead1 with h | h
              · subst h; rfl
              · exact isAtomChar_not_ws h
            have hc1rp : ¬ c1 = ')' := by
              rcases hhead1 with h | h
              · subst h; intro hcc; cases hcc
              · exact isAtomChar_ne_rparen h
            have hrest1 : restOk (outs ++ ')' :: rest) := by
              cases houts : outs with
              | nil => simp [restOk, isAtomChar, isWsChar]
              | cons oc orest =>
                  rw [houts] at hsep
                  simp only [List.cons_append, restOk]
                  exact ws_not_atomChar hsep
            obtain ⟨n1, hpe, hb1⟩ := hinv1 (outs ++ ')' :: rest) hrest1
            obtain ⟨ns, hpi, hbc⟩ := hparse rest
            refine ⟨.mk "list" true "" (lparenNode :: ((n1 :: ns) ++ [rparenNode])),
              ?_, ?_⟩
            · rw [show ('(' :: (c1 :: out1' ++ outs ++ [')'])) ++ rest =
                  '(' :: ((c1 :: out1') ++ (outs ++ ')' :: rest)) by simp]
              rw [parseE_cons_lparen]
              have hskip : skipWs ((c1 :: out1') ++ (outs ++ ')' :: rest)) =
                  c1 :: (out1' ++ (outs ++ ')' :: rest)) := by
                rw [List.cons_append]
                exact skipWs_cons_of_not_ws hc1ws _
              rw [parseItemsE_item hskip hc1rp]
              rw [show c1 :: (out1' ++ (outs ++ ')' :: rest)) =
                  (c1 :: out1') ++ (outs ++ ')' :: rest) by simp]
              rw [hpe]
              simp only
              rw [hpi]
            · rw [Sexp.build_tree]
              simp only [String.reduceEq, if_false, reduceIte]
              rw [List.cons_append n1 ns [rparenNode], buildChildren, hb1,
                buildChildren_append_rparen ns tail hbc]
              simp

theorem parseTop_eq (s : List Char) : parseTop s = parseE (skipWs s) := by
  rw [parseTop, parseE]
  cases hp : parseExpr (skipWs s) <;> simp

/-- Any expression `of_str` returns is in the builder's good image. -/
theorem of_str_good (s : String) (e : Sexp) (h : Sexp.of_str s = .ok e) :
    GoodExpr e := by
  rw [Sexp.of_str] at h
  cases hpt : parseTop s.data with
  | none => rw [hpt] at h; cases h
  | some p =>
      obtain ⟨n, r⟩ := p
      rw [hpt] at h
      simp only at h
      rw [parseTop_eq] at hpt
      have hwf : WFNode n := (parse_WF_all (2 * (skipWs s.data).length)).1
        (skipWs s.data) (Nat.le_refl _) n r hpt
      obtain ⟨e', hb', hg⟩ := wfNode_build n hwf
      rw [h] at hb'
      injection hb' with hh
      rw [hh]
      exact hg

/-- **C8**: for every source text that parses and builds successfully,
formatting the built tree, reparsing the formatted text (parser modelled
from the spec), and formatting again yields byte-identical output: the
reparse rebuilds the very same expression tree, so the second format
equals the first. -/
theorem format_reparse_idempotent (s : String) (e : Sexp)
    (h : Sexp.of_str s = .ok e) :
    ∃ out : List Char, Sexp.format e = some out ∧
      Sexp.of_str (String.mk out) = .ok e ∧
      ∀ e2 : Sexp, Sexp.of_str (String.mk out) = .ok e2 →
        Sexp.format e2 = some out := by
  have hg := of_str_good s e h
  obtain ⟨out, st', hpp, _, hhead, hinv⟩ := goodExpr_roundTrips e hg
    { max_width := 150, current_width := 0, indent_size := 1, current_depth := 0 }
  have hofs : Sexp.of_str (String.mk out) = .ok e := by
    obtain ⟨n2, hpe2, hb2⟩ := hinv [] trivial
    rw [List.append_nil] at hpe2
    rw [Sexp.of_str, show (String.mk out).data = out from rfl, parseTop_eq,
      skipWs_of_headOk out hhead, hpe2]
    exact hb2
  refine ⟨out, ?_, hofs, ?_⟩
  · rw [Sexp.format, renderWith, hpp]
  · intro e2 h2
    rw [hofs] at h2
    injection h2 with hh
    rw [← hh]
    rw [Sexp.format, renderWith, hpp]

theorem format_reparse_idempotent_witness :
    ∃ out : List Char,
      Sexp.format (.List [.Atom "a", .Atom "b", .Nil]) = some out ∧
      Sexp.of_str (String.mk out) = .ok (.List [.Atom "a", .Atom "b", .Nil]) ∧
      ∀ e2 : Sexp, Sexp.of_str (String.mk out) = .ok e2 →
        Sexp.format e2 = some out :=
  format_reparse_idempotent "(a b)" (.List [.Atom "a", .Atom "b", .Nil])
    (by simp [Sexp.of_str, parseTop, skipWs, parseExpr, parseItems, Sexp.build_tree,
      buildChildren, lparenNode, rparenNode, isWsChar, isAtomChar,
      List.takeWhile, List.dropWhile])

theorem buildChildren_rparen_last : ∀ (xs : List CNode) (es : List Sexp),
    buildChildren (xs ++ [rparenNode]) = .ok es → ∃ es2, es = es2 ++ [.Nil] := by
  intro xs
  induction xs with
  | nil =>
      intro es h
      rw [List.nil_append, buildChildren] at h
      rw [show Sexp.build_tree rparenNode = .ok .Nil from rfl] at h
      simp only [buildChildren] at h
      injection h with hh
      exact ⟨[], hh.symm⟩
  | cons c cs ih =>
      intro es h
      rw [List.cons_append, buildChildren] at h
      cases hb : Sexp.build_tree c with
      | error err => rw [hb] at h; cases h
      | ok s1 =>
          rw [hb] at h
          simp only at h
          cases hbc : buildChildren (cs ++ [rparenNode]) with
          | error err => rw [hbc] at h; cases h
          | ok ss =>
              rw [hbc] at h
              simp only at h
              injection h with hh
              obtain ⟨es2, rfl⟩ := ih ss hbc
              exact ⟨s1 :: es2, by rw [← hh]; rfl⟩

/-- **C10**: building any well-formed `list` node yields a `List` whose
children sequence is non-empty and ends in `Nil` (the materialized closing
delimiter); consequently rendering any expression built from parser output
returns `current_depth` to exactly its entry value, so successive subtrees
at the same level see the same depth. -/
theorem built_list_nil_terminated_depth_restored :
    (∀ (items : List CNode) (e : Sexp),
        Sexp.build_tree (listNode items) = .ok e →
        ∃ es, e = .List (es ++ [Sexp.Nil]) ∧ es ++ [Sexp.Nil] ≠ [] ∧
          (es ++ [Sexp.Nil]).getLast? = some Sexp.Nil) ∧
    (∀ (s : String) (e : Sexp), Sexp.of_str s = .ok e →
        ∀ st : PrettyPrinter,
          (st.pp e).map (fun r => r.2.current_depth) = some st.current_depth) := by
  constructor
  · intro items e h
    rw [listNode, Sexp.build_tree] at h
    simp only [String.reduceEq, if_false, reduceIte] at h
    cases hbc : buildChildren (items ++ [rparenNode]) with
    | error err => rw [hbc] at h; cases h
    | ok es =>
        rw [hbc] at h
        simp only at h
        injection h with hh
        obtain ⟨es2, rfl⟩ := buildChildren_rparen_last items es hbc
        refine ⟨es2, by rw [← hh]; rfl, by simp, ?_⟩
        rw [List.getLast?_concat]
  · intro s e h st
    have hg := of_str_good s e h
    have hnice := goodExpr_nice e hg
    have hdr := niceExpr_depthRun e hnice st.current_depth
    have hcorr := pp_depthRun e st
    rw [hdr] at hcorr
    exact hcorr

theorem built_list_nil_terminated_depth_restored_witness :
    (∃ es, (Sexp.List [.Atom "a", .Nil] : Sexp) = .List (es ++ [Sexp.Nil]) ∧
      es ++ [Sexp.Nil] ≠ [] ∧ (es ++ [Sexp.Nil]).getLast? = some Sexp.Nil) ∧
    ((PrettyPrinter.new.pp (.List [.Atom "a", .Atom "b", .Nil])).map
      (fun r => r.2.current_depth) = some PrettyPrinter.new.current_depth) :=
  ⟨built_list_nil_terminated_depth_restored.1 [atomNode "a"]
      (.List [.Atom "a", .Nil]) rfl,
   built_list_nil_terminated_depth_restored.2 "(a b)"
      (.List [.Atom "a", .Atom "b", .Nil])
      (by simp [Sexp.of_str, parseTop, skipWs, parseExpr, parseItems, Sexp.build_tree,
        buildChildren, lparenNode, rparenNode, isWsChar, isAtomChar,
        List.takeWhile, List.dropWhile])
      PrettyPrinter.new⟩

end TreeSitterSexp
